import Mathlib

/-!
Verification of the LC-trie implementation in `src/trie.cpp` (`struct lctrie`).

The embedding below translates the source, defect for defect, into Lean:

* `key_type` is `uint32_t`; keys are modelled as `Nat` with explicit `% 2^32`
  wherever the C arithmetic truncates.  Statements about ranges of keys carry
  the hypothesis that the keys are below `2^32`, which the C type guarantees.
* `key_data` (`{ key, offset }`) becomes `KeyData`; `node` (`branch:5, skip:7,
  next:20` bit-fields) becomes `TrieNode`, with stores into the 20-bit `next`
  field truncated by `% 2^20` as the packed field would.
* out-of-range `operator[]`/iterator dereferences are undefined behaviour in
  the source; here the accessors return `Option` and such accesses give `none`.
* the `while` loop of `high_zero_count` does not terminate when its argument
  is zero (the source keeps shifting and waits for bit 31 to become set);
  it is modelled with an explicit fuel parameter, `none` meaning that the
  loop is still running when the fuel runs out.  All functions that call it
  thread the same fuel through.
* `std::find` on the value vector becomes `vec_find` (index of the first
  occurrence); `std::partition_point` becomes `partition_point` which returns
  the first position in the iterator range at which the predicate fails --
  exactly the value the standard guarantees on a partitioned range.
-/

/-- `key_data` from the source: a key together with the (8-bit) offset of its
value in `m_vals`.  The source writes `m_vals.size() - 1` and
`std::distance` results into the `uint8_t` field; the guard in `init_map`
keeps those below 255 so no truncation can occur, and the field is a `Nat`. -/
structure KeyData where
  key : Nat
  offset : Nat
deriving Repr, DecidableEq

/-- `node` from the source: the packed `branch:5, skip:7, next:20` record. -/
structure TrieNode where
  branch : Nat
  skip : Nat
  next : Nat
deriving Repr, DecidableEq

/-- `lctrie::extract`: `key >>= (pos - (branch - 1)); return key & ((1U << branch) - 1U)`.
Documented preconditions in the source: `1 <= branch <= 31` and `pos >= branch - 1`. -/
def extract (pos branch key : Nat) : Nat :=
  (key >>> (pos - (branch - 1))) &&& ((1 <<< branch) - 1)

/-- `std::find(m_vals.cbegin(), m_vals.cend(), val)` followed by
`std::distance(m_vals.cbegin(), itr)`: the index of the first occurrence. -/
def vec_find (vals : List Nat) (target : Nat) : Option Nat :=
  match vals with
  | [] => none
  | v :: rest => if v = target then some 0 else Option.map (· + 1) (vec_find rest target)

/-- The `for` loop of `lctrie::init_map`: for each input pair, look its value
up in `m_vals`; if absent, append it and record offset `m_vals.size() - 1`
(the size after the push, minus one, i.e. the old size); otherwise record the
index of the existing occurrence.  A `KeyData` entry is appended either way. -/
def init_map_loop : List (Nat × Nat) → List KeyData → List Nat → List KeyData × List Nat
  | [], keys, vals => (keys, vals)
  | (k, v) :: rest, keys, vals =>
    match vec_find vals v with
    | none => init_map_loop rest (keys ++ [⟨k, vals.length⟩]) (vals ++ [v])
    | some i => init_map_loop rest (keys ++ [⟨k, i⟩]) vals

/-- `lctrie::init_map`.  The source first checks `input.size() > 0xFF`, prints
"unsupported number of lctrie values" and returns without building anything;
that early-out is modelled as `none`.  Otherwise the loop above runs on fresh
vectors.  Note the guard counts input *pairs*, not distinct values, and the
loop never sorts the key array. -/
def init_map (input : List (Nat × Nat)) : Option (List KeyData × List Nat) :=
  if input.length > 0xFF then none
  else some (init_map_loop input [] [])

/-- `high_zero_count`: `while ((diff & 0x80000000U) == 0U) { ++count; diff <<= 1U; }`.
`diff` is a `size_t`, so the left shift truncates at 64 bits while the test
looks at bit 31 only.  The loop never terminates when no 1-bit can reach
position 31; the fuel parameter makes that observable as `none`. -/
def high_zero_count : Nat → Nat → Option Nat
  | 0, _ => none
  | fuel + 1, diff =>
    if diff &&& 0x80000000 = 0 then
      Option.map (· + 1) (high_zero_count fuel ((diff <<< 1) % 2 ^ 64))
    else
      some 0

/-- `lctrie::compute_skip`: XOR the first and last keys of the range (the
source writes `m_keys[first] ^ m_keys[last]`, on the `key` fields), shift the
32-bit difference left by `pre`, and count leading zeros down from bit 31. -/
def compute_skip (fuel : Nat) (keys : List KeyData) (first nkeys pre : Nat) : Option Nat :=
  match keys.get? first, keys.get? (first + nkeys - 1) with
  | some ef, some el =>
      high_zero_count fuel (((ef.key ^^^ el.key) <<< pre) % 2 ^ 32)
  | _, _ => none

/-- `std::partition_point(it, it + cnt, p)` on the key vector, with iterators
represented by indices: the first position in `[lo, lo + cnt)` at which `p`
fails on the element's key, or `lo + cnt` if `p` holds throughout.  (This is
the value the standard guarantees for a partitioned range; dereferencing out
of the vector stops the scan, mirroring that such access is undefined.) -/
def partition_point (p : Nat → Bool) (keys : List KeyData) (lo : Nat) : Nat → Nat
  | 0 => lo
  | cnt + 1 =>
    match keys.get? lo with
    | some e => if p e.key then partition_point p keys (lo + 1) cnt else lo
    | none => lo

/-- The value computed by each comparand of `compute_branch`:
`(k << shift) & mask` with `mask = 0xC0000000` on a 32-bit key -- the two
bits of `k` just below the top `shift` ones, parked at positions 30/31. -/
def fieldOf (shift k : Nat) : Nat :=
  ((k <<< shift) % 2 ^ 32) &&& 0xC0000000

/-- `lctrie::compute_branch`: examines the two key bits after `pre + skip`.
The comparand lambdas of the source take the element by `key_type`, i.e. act
on the `key` field.  `end` is `begin + (nkeys - 1)`, so every
`partition_point` scan excludes the last element of the range, and the final
`part == end` test compares against that last position.  The function only
ever produces 1 or 2 (the source ends with the comment `recursive case????`). -/
def compute_branch (keys : List KeyData) (first nkeys pre skip : Nat) : Option Nat :=
  let shift := pre + skip
  match keys.get? first with
  | none => none
  | some e0 =>
    if fieldOf shift e0.key ≠ 0 then some 1 else
    let endIdx := first + (nkeys - 1)
    let part := partition_point (fun k => fieldOf shift k = 0) keys first (nkeys - 1)
    match keys.get? part with
    | none => none
    | some ep =>
      if fieldOf shift ep.key ≠ 0x40000000 then some 1 else
      let part2 := partition_point (fun k => fieldOf shift k = 0x40000000) keys part (endIdx - part)
      match keys.get? part2 with
      | none => none
      | some ep2 =>
        if fieldOf shift ep2.key ≠ 0x80000000 then some 1 else
        let part3 := partition_point (fun k => fieldOf shift k = 0x80000000) keys part2 (endIdx - part2)
        if part3 = endIdx then some 1 else some 2

/-- `lctrie::make_node`.  The source pushes a leaf `{0, 0, first}` when
`nkeys == 1` and then *falls through* (there is no `return`), always invoking
`compute_skip` and `compute_branch`, whose results are discarded.  It returns
`void` and never recurses; the node list after the call is the only
observable effect.  The 20-bit `next` field truncates the stored index. -/
def make_node (fuel : Nat) (keys : List KeyData) (nodes : List TrieNode)
    (first nkeys pre : Nat) : Option (List TrieNode) :=
  let nodes1 := if nkeys = 1 then nodes ++ [⟨0, 0, first % 2 ^ 20⟩] else nodes
  match compute_skip fuel keys first nkeys pre with
  | none => none
  | some skip =>
    match compute_branch keys first nkeys pre skip with
    | none => none
    | some _branch => some nodes1

/-- `lctrie::init_trie`: fresh node vector, then `make_node(0, m_keys.size())`
(the source passes two arguments to the three-parameter function; the missing
`pre` can only be the initial `0`). -/
def init_trie (fuel : Nat) (keys : List KeyData) : Option (List TrieNode) :=
  make_node fuel keys [] 0 keys.length 0

/-- `lctrie::init`: `init_map(input); init_trie();`.  The early-out of
`init_map` leaves the key/value vectors unallocated, so `init_trie` on that
state is undefined behaviour; the model propagates the failure. -/
def lctrie_init (fuel : Nat) (input : List (Nat × Nat)) :
    Option (List TrieNode × List KeyData × List Nat) :=
  match init_map input with
  | none => none
  | some (keys, vals) =>
    match init_trie fuel keys with
    | none => none
    | some nodes => some (nodes, keys, vals)

/-- The key stored at index `i`, `0` out of range (specification shorthand;
the executable code above never uses it). -/
def keyN (keys : List KeyData) (i : Nat) : Nat :=
  match keys.get? i with
  | some e => e.key
  | none => 0

/-- The value of the `b` bits of `k` that immediately follow the top `shift`
bits (bit positions `31 - shift` down to `32 - shift - b`, counted from the
least significant end).  These are the bits an LC-trie node at consumed-bit
count `shift` would branch on. -/
def bitsAfter (shift b k : Nat) : Nat :=
  k / 2 ^ (32 - shift - b) % 2 ^ b

/-- Decidable check that `keyN` is ascending on positions `first..last`. -/
def sortedRangeB (keys : List KeyData) (first last : Nat) : Bool :=
  (List.range (last - first)).all fun t =>
    keyN keys (first + t) ≤ keyN keys (first + t + 1)

/-- Decidable check that every key on positions `first..last` fits in 32 bits
(automatic for the C `uint32_t` key type). -/
def boundedRangeB (keys : List KeyData) (first last : Nat) : Bool :=
  (List.range (last + 1 - first)).all fun t =>
    keyN keys (first + t) < 2 ^ 32

/-! ## Helper lemmas -/

/-- The `high_zero_count` loop never terminates on `0`: shifting `0` left
never sets bit 31, so every fuel bound is exhausted. -/
theorem high_zero_count_zero : ∀ fuel, high_zero_count fuel 0 = none := by
  intro fuel
  induction fuel with
  | zero => rfl
  | succ f ih => simp [high_zero_count, ih]

theorem vec_find_none {vals : List Nat} {v : Nat} (h : vec_find vals v = none) : v ∉ vals := by
  induction vals with
  | nil => simp
  | cons w rest ih =>
    simp only [vec_find] at h
    by_cases hw : w = v
    · rw [if_pos hw] at h
      simp at h
    · rw [if_neg hw] at h
      have hr : vec_find rest v = none := by
        cases hf : vec_find rest v with
        | none => rfl
        | some i => rw [hf] at h; simp at h
      simp only [List.mem_cons, not_or]
      exact ⟨fun he => hw he.symm, ih hr⟩

theorem vec_find_some {vals : List Nat} {v i : Nat} (h : vec_find vals v = some i) :
    vals.get? i = some v := by
  induction vals generalizing i with
  | nil => simp [vec_find] at h
  | cons w rest ih =>
    by_cases hw : w = v
    · simp [vec_find, hw] at h
      subst h hw
      rfl
    · simp only [vec_find, if_neg hw] at h
      cases hf : vec_find rest v with
      | none => rw [hf] at h; simp at h
      | some j =>
        rw [hf] at h
        simp at h
        subst h
        simpa using ih hf

/-- Invariants of the `init_map` loop, proved at once by induction over the
remaining input: the value vector only grows at its end; one `KeyData` entry
is appended per pair; value distinctness is preserved; existing entries are
untouched; and each new entry carries its pair's key together with an offset
at which the final value vector holds that pair's value. -/
theorem init_map_loop_spec :
    ∀ (rest : List (Nat × Nat)) (keys : List KeyData) (vals : List Nat),
      (∃ t, (init_map_loop rest keys vals).2 = vals ++ t) ∧
      (init_map_loop rest keys vals).1.length = keys.length + rest.length ∧
      (vals.Nodup → (init_map_loop rest keys vals).2.Nodup) ∧
      (∀ n, n < keys.length → (init_map_loop rest keys vals).1.get? n = keys.get? n) ∧
      (∀ n pr, rest.get? n = some pr →
        ∃ e, (init_map_loop rest keys vals).1.get? (keys.length + n) = some e ∧
          e.key = pr.1 ∧ (init_map_loop rest keys vals).2.get? e.offset = some pr.2) := by
  intro rest
  induction rest with
  | nil =>
    intro keys vals
    refine ⟨⟨[], by simp [init_map_loop]⟩, by simp [init_map_loop], fun h => by
      simpa [init_map_loop] using h, fun n _ => by simp [init_map_loop], fun n pr hpr => ?_⟩
    simp at hpr
  | cons kv rs ih =>
    intro keys vals
    obtain ⟨k, v⟩ := kv
    cases hf : vec_find vals v with
    | none =>
      have hloop : init_map_loop ((k, v) :: rs) keys vals =
          init_map_loop rs (keys ++ [⟨k, vals.length⟩]) (vals ++ [v]) := by
        simp [init_map_loop, hf]
      obtain ⟨⟨t, hT⟩, hL, hN, hP, hE⟩ := ih (keys ++ [⟨k, vals.length⟩]) (vals ++ [v])
      rw [hloop]
      refine ⟨⟨[v] ++ t, by rw [hT, List.append_assoc]⟩, by simp [hL]; omega, ?_, ?_, ?_⟩
      · intro hnd
        refine hN ?_
        rw [List.nodup_append]
        exact ⟨hnd, List.nodup_singleton v, List.disjoint_singleton.mpr (vec_find_none hf)⟩
      · intro n hn
        rw [hP n (by simp; omega)]
        exact List.get?_append hn
      · intro n pr hpr
        cases n with
        | zero =>
          have hpr0 : pr = (k, v) := by simpa using hpr.symm
          subst hpr0
          have hk : keys.length < (keys ++ [(⟨k, vals.length⟩ : KeyData)]).length := by
            simp
          refine ⟨⟨k, vals.length⟩, ?_, rfl, ?_⟩
          · rw [Nat.add_zero, hP keys.length hk]
            exact List.get?_concat_length keys ⟨k, vals.length⟩
          · rw [hT]
            have hvlen : vals.length < (vals ++ [v]).length := by simp
            rw [List.get?_append hvlen, List.get?_concat_length]
        | succ m =>
          simp only [List.get?_cons_succ] at hpr
          obtain ⟨e, he1, he2, he3⟩ := hE m pr hpr
          refine ⟨e, ?_, he2, he3⟩
          rw [← he1]
          congr 1
          simp
          omega
    | some i =>
      have hloop : init_map_loop ((k, v) :: rs) keys vals =
          init_map_loop rs (keys ++ [⟨k, i⟩]) vals := by
        simp [init_map_loop, hf]
      obtain ⟨⟨t, hT⟩, hL, hN, hP, hE⟩ := ih (keys ++ [⟨k, i⟩]) vals
      rw [hloop]
      refine ⟨⟨t, hT⟩, by simp [hL]; omega, hN, ?_, ?_⟩
      · intro n hn
        rw [hP n (by simp; omega)]
        exact List.get?_append hn
      · intro n pr hpr
        cases n with
        | zero =>
          have hpr0 : pr = (k, v) := by simpa using hpr.symm
          subst hpr0
          have hk : keys.length < (keys ++ [(⟨k, i⟩ : KeyData)]).length := by simp
          refine ⟨⟨k, i⟩, ?_, rfl, ?_⟩
          · rw [Nat.add_zero, hP keys.length hk]
            exact List.get?_concat_length keys ⟨k, i⟩
          · have hvi := vec_find_some hf
            have hilen : i < vals.length := (List.get?_eq_some.mp hvi).1
            rw [hT, List.get?_append hilen]
            exact hvi
        | succ m =>
          simp only [List.get?_cons_succ] at hpr
          obtain ⟨e, he1, he2, he3⟩ := hE m pr hpr
          refine ⟨e, ?_, he2, he3⟩
          rw [← he1]
          congr 1
          simp
          omega

/-- Positions with the same stored value in a duplicate-free list coincide. -/
theorem nodup_get?_inj {l : List Nat} (h : l.Nodup) {a b x : Nat}
    (ha : l.get? a = some x) (hb : l.get? b = some x) : a = b := by
  rw [List.get?_eq_some] at ha hb
  obtain ⟨ha1, ha2⟩ := ha
  obtain ⟨hb1, hb2⟩ := hb
  have hab := (List.Nodup.get_inj_iff h (i := ⟨a, ha1⟩) (j := ⟨b, hb1⟩)).mp (by rw [ha2, hb2])
  exact congrArg Fin.val hab

/-- `make_node` only ever appends the leaf `{0, 0, first}`: any node of the
output list was either already present or is that leaf. -/
theorem make_node_appends_only_leaves {fuel : Nat} {keys : List KeyData}
    {nodes : List TrieNode} {first nkeys pre : Nat} {nodes2 : List TrieNode}
    (h : make_node fuel keys nodes first nkeys pre = some nodes2) :
    ∀ n ∈ nodes2, n ∈ nodes ∨ (n.branch = 0 ∧ n.skip = 0) := by
  cases hcs : compute_skip fuel keys first nkeys pre with
  | none => simp [make_node, hcs] at h
  | some skip =>
    cases hcb : compute_branch keys first nkeys pre skip with
    | none => simp [make_node, hcs, hcb] at h
    | some b =>
      simp only [make_node, hcs, hcb, Option.some.injEq] at h
      subst h
      intro n hn
      by_cases h1 : nkeys = 1
      · rw [if_pos h1] at hn
        rcases List.mem_append.mp hn with hold | hnew
        · exact Or.inl hold
        · right
          rw [List.mem_singleton.mp hnew]
          exact ⟨rfl, rfl⟩
      · rw [if_neg h1] at hn
        exact Or.inl hn

/-! ## Claims -/

/-- C1: the spec promises that for every pair supplied to `build`, a lookup of
the key returns its value.  The code cannot satisfy this: no lookup routine
exists in the source, and `make_node` (the whole of trie construction) never
recurses and never appends an internal node.  Running `lctrie::init` on the
spec's own example input (`main`'s four pairs) deduplicates the values into
`[1, 3, 2]` exactly as the spec's §8 example demands, but leaves the node
array empty -- there is no trie to look anything up in. -/
theorem C1_spec_example_builds_empty_node_array :
    lctrie_init 64 [(0x00b74a03, 1), (0x00c00300, 3), (0xc0254a00, 2), (0xc0334100, 3)] =
      some ([],
        [⟨0x00b74a03, 0⟩, ⟨0x00c00300, 1⟩, ⟨0xc0254a00, 2⟩, ⟨0xc0334100, 1⟩],
        [1, 3, 2]) := by
  rfl

/-- C2 counterexample: an input of 256 pairs carrying 256 pairwise-distinct
values.  The claim says `build` succeeds on exactly 256 distinct values, but
`init_map` tests the number of *pairs* against `0xFF` and rejects this
input. -/
theorem C2_cex_256_distinct_values_rejected :
    (((List.range 256).map (fun i => (i, i))).map Prod.snd).Nodup ∧
    ((List.range 256).map (fun i => (i, i))).length = 256 ∧
    init_map ((List.range 256).map (fun i => (i, i))) = none := by
  refine ⟨?_, by simp, ?_⟩
  · have hmap : ((List.range 256).map (fun i : Nat => (i, i))).map Prod.snd =
        List.range 256 := by
      rw [List.map_map]
      exact List.map_id (List.range 256)
    rw [hmap]
    exact List.nodup_range 256
  · have hlen : ((List.range 256).map (fun i : Nat => (i, i))).length = 256 := by simp
    rw [init_map, if_pos (by rw [hlen]; norm_num)]

/-- C2 (amended): `init_map` refuses the input -- prints a diagnostic and
returns without building the tables -- exactly when the number of input
*pairs* exceeds 255 (`0xFF`).  It never counts distinct values: inputs with
at most 255 pairs always pass the guard (and then have at most 255 distinct
values), and any input with 256 or more distinct values necessarily has more
than 255 pairs and is refused. -/
theorem C2_amended_rejects_iff_more_than_255_pairs (input : List (Nat × Nat)) :
    init_map input = none ↔ 255 < input.length := by
  constructor
  · intro hc
    by_contra hl
    rw [init_map, if_neg hl] at hc
    exact absurd hc (by simp)
  · intro hl
    rw [init_map, if_pos hl]

theorem C2_amended_witness :
    init_map ((List.range 256).map (fun i => (i, i))) = none ↔
      255 < ((List.range 256).map (fun i : Nat => (i, i))).length :=
  C2_amended_rejects_iff_more_than_255_pairs ((List.range 256).map (fun i => (i, i)))

/-- C3: the claim (and the comments inside `compute_skip`/`compute_branch`,
which assume a sorted range) requires the key array to be sorted ascending
after `init_map`; but `init_map` never sorts, it emits entries in input
order.  On the two-pair input `[(2, 7), (1, 7)]` the produced KeyEntry array
is `[{2, 0}, {1, 0}]`, which is not ascending by key. -/
theorem C3_bug_output_not_sorted :
    init_map [(2, 7), (1, 7)] = some ([⟨2, 0⟩, ⟨1, 0⟩], [7]) ∧
    ¬ List.Pairwise (fun a b : KeyData => a.key ≤ b.key) [⟨2, 0⟩, ⟨1, 0⟩] :=
  ⟨rfl, by decide⟩

/-- C4: the claim says construction terminates for every non-empty input.
On the one-pair input `[(5, 7)]`, `make_node` pushes the leaf and falls
through into `compute_skip`, which XORs the single key with itself, getting
`0`; `high_zero_count(0)` shifts `0` forever waiting for bit 31.  No amount
of fuel makes `lctrie::init` finish. -/
theorem C4_bug_single_pair_construction_never_terminates :
    ∀ fuel, lctrie_init fuel [(5, 7)] = none := by
  intro fuel
  have h1 : init_map [(5, 7)] = some ([⟨5, 0⟩], [7]) := rfl
  have h2 : compute_skip fuel [⟨5, 0⟩] 0 1 0 = none := by
    show high_zero_count fuel (((5 ^^^ 5) <<< 0) % 2 ^ 32) = none
    rw [Nat.xor_self]
    exact high_zero_count_zero fuel
  have h3 : make_node fuel [⟨5, 0⟩] [] 0 1 0 = none := by
    simp [make_node, h2]
  simp [lctrie_init, h1, init_trie, h3]

/-- C8: the claim describes reserving `2^branch` child slots, recursing, and
appending the internal node `{branch, skip, next}` whose index is returned.
The source's `make_node` does none of this: on the two-key range below it
computes `skip = 31` and `branch = 1`, discards both, appends nothing (the
node array stays empty), and returns `void` rather than a node index. -/
theorem C8_bug_make_node_appends_nothing :
    make_node 64 [⟨0, 0⟩, ⟨1, 0⟩] [] 0 2 0 = some [] ∧
    compute_skip 64 [⟨0, 0⟩, ⟨1, 0⟩] 0 2 0 = some 31 ∧
    compute_branch [⟨0, 0⟩, ⟨1, 0⟩] 0 2 0 31 = some 1 :=
  ⟨rfl, rfl, rfl⟩

/-- C9: value deduplication in `init_map` is correct.  For any accepted
input, if the pairs at positions `i` and `j` carry the same value, then the
value table holds exactly one slot with that value, the two key entries
carry equal offsets, and that offset resolves to the shared value. -/
theorem C9_value_dedup_correct (input : List (Nat × Nat)) (keys : List KeyData)
    (vals : List Nat) (h : init_map input = some (keys, vals)) (i j : Nat)
    (p q : Nat × Nat) (ei ej : KeyData)
    (hp : input.get? i = some p) (hq : input.get? j = some q)
    (hki : keys.get? i = some ei) (hkj : keys.get? j = some ej)
    (hv : p.2 = q.2) :
    vals.count p.2 = 1 ∧ ei.offset = ej.offset ∧ vals.get? ei.offset = some p.2 := by
  have hloop : init_map_loop input [] [] = (keys, vals) := by
    by_cases hg : input.length > 0xFF
    · rw [init_map, if_pos hg] at h
      exact absurd h (by simp)
    · rw [init_map, if_neg hg] at h
      exact (Option.some.injEq _ _).mp h
  obtain ⟨_, _, hN, _, hE⟩ := init_map_loop_spec input [] []
  rw [hloop] at hN hE
  simp only [List.length_nil, Nat.zero_add] at hE
  have hnd : vals.Nodup := hN List.nodup_nil
  obtain ⟨e1, he1, hk1, ho1⟩ := hE i p hp
  obtain ⟨e2, he2, hk2, ho2⟩ := hE j q hq
  rw [hki] at he1
  rw [hkj] at he2
  have hei := Option.some.inj he1
  have hej := Option.some.inj he2
  subst hei hej
  have hmem : p.2 ∈ vals := List.get?_mem ho1
  refine ⟨List.count_eq_one_of_mem hnd hmem, ?_, ho1⟩
  rw [← hv] at ho2
  exact nodup_get?_inj hnd ho1 ho2

theorem C9_witness :
    init_map [(10, 7), (20, 7)] = some ([⟨10, 0⟩, ⟨20, 0⟩], [7]) ∧
    ([7] : List Nat).count 7 = 1 ∧ (0 : Nat) = 0 ∧ ([7] : List Nat).get? 0 = some 7 :=
  ⟨rfl, C9_value_dedup_correct [(10, 7), (20, 7)] [⟨10, 0⟩, ⟨20, 0⟩] [7] rfl 0 1
    (10, 7) (20, 7) ⟨10, 0⟩ ⟨20, 0⟩ rfl rfl rfl rfl rfl⟩

/-- C10: every node `make_node` ever appends to the node array is a leaf with
`branch = 0` and `skip = 0` (the only `push_back` in it is `{0, 0, first}`),
and consequently, for every input on which construction finishes, the node
array `lctrie::init` produces contains no internal (`branch ≥ 1`) node. -/
theorem C10_only_leaf_nodes_appended :
    (∀ fuel keys nodes first nkeys pre nodes2,
      make_node fuel keys nodes first nkeys pre = some nodes2 →
      ∀ n ∈ nodes2, n ∈ nodes ∨ (n.branch = 0 ∧ n.skip = 0)) ∧
    (∀ fuel input nodes keys vals,
      lctrie_init fuel input = some (nodes, keys, vals) →
      ∀ n ∈ nodes, n.branch = 0 ∧ n.skip = 0) := by
  refine ⟨fun fuel keys nodes first nkeys pre nodes2 h =>
    make_node_appends_only_leaves h, ?_⟩
  intro fuel input nodes keys vals h n hn
  cases him : init_map input with
  | none => simp [lctrie_init, him] at h
  | some kv =>
    obtain ⟨keys0, vals0⟩ := kv
    cases hit : init_trie fuel keys0 with
    | none => simp [lctrie_init, him, hit] at h
    | some nodes0 =>
      simp only [lctrie_init, him, hit, Option.some.injEq, Prod.mk.injEq] at h
      obtain ⟨hn0, hk0, hv0⟩ := h
      subst hn0
      rcases make_node_appends_only_leaves hit n hn with hmem | hleaf
      · exact absurd hmem (List.not_mem_nil n)
      · exact hleaf

theorem C10_witness :
    make_node 64 [⟨0, 0⟩, ⟨1, 0⟩] [⟨1, 2, 3⟩] 0 2 0 = some [⟨1, 2, 3⟩] ∧
    ((⟨1, 2, 3⟩ : TrieNode) ∈ [(⟨1, 2, 3⟩ : TrieNode)] ∨
      ((⟨1, 2, 3⟩ : TrieNode).branch = 0 ∧ (⟨1, 2, 3⟩ : TrieNode).skip = 0)) ∧
    lctrie_init 64 [(10, 7), (20, 9)] = some ([], [⟨10, 0⟩, ⟨20, 1⟩], [7, 9]) :=
  ⟨rfl,
   C10_only_leaf_nodes_appended.1 64 [⟨0, 0⟩, ⟨1, 0⟩] [⟨1, 2, 3⟩] 0 2 0 [⟨1, 2, 3⟩]
     rfl ⟨1, 2, 3⟩ (by simp),
   rfl⟩

/-! ## Bit-arithmetic helpers -/

/-- Masking with a shifted mask equals shifting, masking, and shifting back. -/
theorem and_shl_mask (x a n : Nat) : x &&& (a <<< n) = ((x >>> n) &&& a) <<< n := by
  apply Nat.eq_of_testBit_eq
  intro i
  simp only [Nat.testBit_and, Nat.testBit_shiftLeft, Nat.testBit_shiftRight]
  by_cases h : n ≤ i
  · simp [ge_iff_le, h, Nat.add_sub_cancel' h, Bool.and_left_comm, Bool.and_comm]
  · simp [ge_iff_le, h]

theorem and_three_eq_mod_four (x : Nat) : x &&& 3 = x % 4 := by
  apply Nat.eq_of_testBit_eq
  intro i
  have h3 : (3 : Nat) = 2 ^ 2 - 1 := by norm_num
  have h4 : (4 : Nat) = 2 ^ 2 := by norm_num
  rw [Nat.testBit_and, h3, Nat.testBit_two_pow_sub_one, h4, Nat.testBit_mod_two_pow,
    Bool.and_comm]

theorem and_one_eq_mod_two (x : Nat) : x &&& 1 = x % 2 := Nat.and_one_is_mod x

/-- Right shifts distribute over XOR. -/
theorem xor_shiftRight (a b n : Nat) : (a ^^^ b) >>> n = (a >>> n) ^^^ (b >>> n) := by
  apply Nat.eq_of_testBit_eq
  intro i
  simp [Nat.testBit_shiftRight, Nat.testBit_xor]

/-- Keys that agree above bit `n` have an XOR below `2 ^ n`. -/
theorem xor_lt_of_div_eq {a b n : Nat} (h : a / 2 ^ n = b / 2 ^ n) : a ^^^ b < 2 ^ n := by
  have hz : (a ^^^ b) >>> n = 0 := by
    rw [xor_shiftRight, Nat.shiftRight_eq_div_pow, Nat.shiftRight_eq_div_pow, h]
    exact Nat.xor_self _
  rw [Nat.shiftRight_eq_div_pow] at hz
  exact (Nat.div_eq_zero_iff (Nat.pos_pow_of_pos n (by norm_num))).mp hz

/-- Keys whose XOR is below `2 ^ n` agree above bit `n`. -/
theorem div_eq_of_xor_lt {a b n : Nat} (h : a ^^^ b < 2 ^ n) : a / 2 ^ n = b / 2 ^ n := by
  have hz : (a ^^^ b) >>> n = 0 := by
    rw [Nat.shiftRight_eq_div_pow]
    exact Nat.div_eq_of_lt h
  rw [xor_shiftRight] at hz
  have := Nat.xor_eq_zero.mp hz
  rwa [Nat.shiftRight_eq_div_pow, Nat.shiftRight_eq_div_pow] at this

/-- The bit-31 test of the `high_zero_count` loop, in divisional terms. -/
theorem and_bit31 (v : Nat) : v &&& 0x80000000 = (v / 2 ^ 31 % 2) <<< 31 := by
  have hx : (0x80000000 : Nat) = 1 <<< 31 := by norm_num [Nat.shiftLeft_eq]
  rw [hx, and_shl_mask, Nat.shiftRight_eq_div_pow, and_one_eq_mod_two]

/-- Exact output of the leading-zero loop: if shifting `v` left `s` times is
what first sets bit 31 (i.e. `v * 2 ^ s` lies in `[2^31, 2^32)`), the loop
stops after exactly `s` iterations, for any fuel above `s`. -/
theorem high_zero_count_spec :
    ∀ s fuel v, s < fuel → 2 ^ 31 ≤ v * 2 ^ s → v * 2 ^ s < 2 ^ 32 →
      high_zero_count fuel v = some s := by
  intro s
  induction s with
  | zero =>
    intro fuel v hf h1 h2
    cases fuel with
    | zero => omega
    | succ f =>
      simp only [Nat.pow_zero, Nat.mul_one] at h1 h2
      have hd : v / 2 ^ 31 = 1 := by
        apply Nat.div_eq_of_lt_le
        · simpa using h1
        · norm_num
          exact h2
      have hb : ¬ v &&& 0x80000000 = 0 := by
        rw [and_bit31, hd]
        simp [Nat.shiftLeft_eq]
      simp [high_zero_count, hb]
  | succ s ih =>
    intro fuel v hf h1 h2
    cases fuel with
    | zero => omega
    | succ f =>
      have h21 : (2 : Nat) ≤ 2 ^ (s + 1) := by
        calc (2 : Nat) = 2 ^ 1 := by norm_num
        _ ≤ 2 ^ (s + 1) := Nat.pow_le_pow_right (by norm_num) (by omega)
      have h2v : v * 2 < 2 ^ 32 :=
        lt_of_le_of_lt (Nat.mul_le_mul_left v h21) h2
      have hv31 : v < 2 ^ 31 := by
        have h31 : (2 : Nat) ^ 31 = 2147483648 := by norm_num
        have h32 : (2 : Nat) ^ 32 = 4294967296 := by norm_num
        omega
      have hb : v &&& 0x80000000 = 0 := by
        rw [and_bit31, Nat.div_eq_of_lt hv31]
        simp
      have hshift : (v <<< 1) % 2 ^ 64 = v * 2 := by
        rw [Nat.shiftLeft_eq, pow_one]
        apply Nat.mod_eq_of_lt
        have h32 : (2 : Nat) ^ 32 = 4294967296 := by norm_num
        have h64 : (2 : Nat) ^ 64 = 18446744073709551616 := by norm_num
        omega
      have hmul : v * 2 * 2 ^ s = v * 2 ^ (s + 1) := by ring
      have hrec := ih f (v * 2) (by omega) (by rw [hmul]; exact h1) (by rw [hmul]; exact h2)
      have hshift2 : (v <<< 1) % 18446744073709551616 = v * 2 := by
        have h64 : (18446744073709551616 : Nat) = 2 ^ 64 := by norm_num
        rw [h64]
        exact hshift
      simp [high_zero_count, hb, hshift, hshift2, hrec]

/-- What `compute_skip` computes whenever the loop can terminate: if the
first and last keys of the range differ somewhere below the `pre` bits
already consumed, the result `s` satisfies `pre + s < 32`, the top `pre + s`
bits of the two keys agree, and the bit immediately after differs.  Fuel 32
always suffices. -/
theorem compute_skip_spec (keys : List KeyData) (first nkeys pre : Nat)
    (ef el : KeyData)
    (hgf : keys.get? first = some ef)
    (hgl : keys.get? (first + nkeys - 1) = some el)
    (hne : ef.key ≠ el.key)
    (htop : ef.key / 2 ^ (32 - pre) = el.key / 2 ^ (32 - pre)) :
    ∃ s, compute_skip 32 keys first nkeys pre = some s ∧ pre + s < 32 ∧
      ef.key / 2 ^ (32 - (pre + s)) = el.key / 2 ^ (32 - (pre + s)) ∧
      ef.key.testBit (31 - (pre + s)) ≠ el.key.testBit (31 - (pre + s)) := by
  set df := ef.key ^^^ el.key with hdf
  have hdf0 : df ≠ 0 := fun h => hne (Nat.xor_eq_zero.mp h)
  set d := Nat.log 2 df with hd
  have h2d : 2 ^ d ≤ df := Nat.pow_log_le_self 2 hdf0
  have hd2 : df < 2 ^ (d + 1) := Nat.lt_pow_succ_log_self (by norm_num) df
  have hdlt : df < 2 ^ (32 - pre) := xor_lt_of_div_eq htop
  have hd31 : d + 1 ≤ 32 - pre := by
    by_contra hc
    push_neg at hc
    have hle : 2 ^ (32 - pre) ≤ 2 ^ d := Nat.pow_le_pow_right (by norm_num) (by omega)
    omega
  have hpre : pre + d ≤ 31 := by omega
  refine ⟨31 - pre - d, ?_, by omega, ?_, ?_⟩
  · have hvlt : df * 2 ^ pre < 2 ^ 32 := by
      calc df * 2 ^ pre < 2 ^ (32 - pre) * 2 ^ pre :=
            (Nat.mul_lt_mul_right (Nat.two_pow_pos pre)).mpr hdlt
      _ = 2 ^ 32 := by rw [← pow_add]; congr 1; omega
    have hv : (df <<< pre) % 2 ^ 32 = df * 2 ^ pre := by
      rw [Nat.shiftLeft_eq]
      exact Nat.mod_eq_of_lt hvlt
    have hmul : df * 2 ^ pre * 2 ^ (31 - pre - d) = df * 2 ^ (31 - d) := by
      rw [mul_assoc, ← pow_add]
      congr 2
      omega
    have hlow : 2 ^ 31 ≤ df * 2 ^ pre * 2 ^ (31 - pre - d) := by
      rw [hmul]
      calc (2 : Nat) ^ 31 = 2 ^ d * 2 ^ (31 - d) := by rw [← pow_add]; congr 1; omega
      _ ≤ df * 2 ^ (31 - d) := Nat.mul_le_mul_right _ h2d
    have hhigh : df * 2 ^ pre * 2 ^ (31 - pre - d) < 2 ^ 32 := by
      rw [hmul]
      calc df * 2 ^ (31 - d) < 2 ^ (d + 1) * 2 ^ (31 - d) :=
            (Nat.mul_lt_mul_right (Nat.two_pow_pos _)).mpr hd2
      _ = 2 ^ 32 := by rw [← pow_add]; congr 1; omega
    have hzc := high_zero_count_spec (31 - pre - d) 32 (df * 2 ^ pre) (by omega) hlow hhigh
    simp only [compute_skip, hgf, hgl, ← hdf]
    rw [hv]
    exact hzc
  · have h32ps : 32 - (pre + (31 - pre - d)) = d + 1 := by omega
    rw [h32ps]
    exact div_eq_of_xor_lt hd2
  · have h31ps : 31 - (pre + (31 - pre - d)) = d := by omega
    rw [h31ps]
    have hbit : df.testBit d = true := by
      rw [Nat.testBit_to_div_mod]
      have hq : df / 2 ^ d = 1 := by
        apply Nat.div_eq_of_lt_le
        · simpa using h2d
        · have : (1 + 1) * 2 ^ d = 2 ^ (d + 1) := by ring
          rw [this]
          exact hd2
      simp [hq]
    have hx : (ef.key.testBit d ^^ el.key.testBit d) = true := by
      rw [← Nat.testBit_xor, ← hdf]
      exact hbit
    intro heq
    rw [heq] at hx
    simp at hx

/-- C5 counterexample: the claim quantifies over *every* `pre`, but when the
first and last keys already differ within the top `pre` bits the left shift
discards that difference.  On the sorted two-key range `[1, 0x80000000]`
with `pre = 1`, `compute_skip` returns `s = 30`, yet the top `pre + s = 31`
bits of the two keys do not agree (they differ at the very top bit). -/
theorem C5_cex_pre_bits_disagree :
    compute_skip 64 [⟨1, 0⟩, ⟨0x80000000, 0⟩] 0 2 1 = some 30 ∧
    (1 : Nat) / 2 ^ (32 - (1 + 30)) ≠ (0x80000000 : Nat) / 2 ^ (32 - (1 + 30)) :=
  ⟨rfl, by norm_num⟩

/-- C5 (amended): for a range whose first and last keys differ below the
already-consumed `pre` top bits (i.e. they agree on those top `pre` bits --
exactly the situation produced by the recursive construction -- and are not
equal, so that the loop can terminate), `compute_skip` with fuel 32 returns
`s` with `pre + s < KEY_BITS = 32` (hence the claim's clamp `pre + s ≤ 32`
holds), the top `pre + s` bits of the first and last keys agree, and the bit
immediately after differs between them.  Sortedness of the range is not
needed: only the first and last entries are inspected. -/
theorem C5_amended_compute_skip_correct (keys : List KeyData)
    (first nkeys pre : Nat) (ef el : KeyData)
    (hgf : keys.get? first = some ef)
    (hgl : keys.get? (first + nkeys - 1) = some el)
    (hne : ef.key ≠ el.key)
    (htop : ef.key / 2 ^ (32 - pre) = el.key / 2 ^ (32 - pre)) :
    ∃ s, compute_skip 32 keys first nkeys pre = some s ∧ pre + s < 32 ∧
      ef.key / 2 ^ (32 - (pre + s)) = el.key / 2 ^ (32 - (pre + s)) ∧
      ef.key.testBit (31 - (pre + s)) ≠ el.key.testBit (31 - (pre + s)) :=
  compute_skip_spec keys first nkeys pre ef el hgf hgl hne htop

theorem C5_amended_witness :
    (16 : Nat) ≠ 19 ∧
    (∃ s, compute_skip 32 [⟨16, 0⟩, ⟨19, 0⟩] 0 2 0 = some s ∧ 0 + s < 32 ∧
      (16 : Nat) / 2 ^ (32 - (0 + s)) = (19 : Nat) / 2 ^ (32 - (0 + s)) ∧
      (16 : Nat).testBit (31 - (0 + s)) ≠ (19 : Nat).testBit (31 - (0 + s))) :=
  ⟨by decide,
   C5_amended_compute_skip_correct [⟨16, 0⟩, ⟨19, 0⟩] 0 2 0 ⟨16, 0⟩ ⟨19, 0⟩ rfl rfl
     (by decide) (by decide)⟩

/-! ## partition_point and sorted-range helpers -/

theorem partition_point_ge (p : Nat → Bool) (keys : List KeyData) :
    ∀ cnt lo, lo ≤ partition_point p keys lo cnt := by
  intro cnt
  induction cnt with
  | zero => intro lo; exact Nat.le_refl lo
  | succ c ih =>
    intro lo
    cases hg : keys.get? lo with
    | none =>
      simp only [partition_point, hg]
      exact Nat.le_refl lo
    | some e =>
      by_cases hp : p e.key = true
      · simp only [partition_point, hg, if_pos hp]
        exact Nat.le_trans (Nat.le_succ lo) (ih (lo + 1))
      · simp only [partition_point, hg, if_neg hp]
        exact Nat.le_refl lo

theorem partition_point_le (p : Nat → Bool) (keys : List KeyData) :
    ∀ cnt lo, partition_point p keys lo cnt ≤ lo + cnt := by
  intro cnt
  induction cnt with
  | zero => intro lo; exact Nat.le_refl lo
  | succ c ih =>
    intro lo
    cases hg : keys.get? lo with
    | none =>
      simp only [partition_point, hg]
      omega
    | some e =>
      by_cases hp : p e.key = true
      · simp only [partition_point, hg, if_pos hp]
        have := ih (lo + 1)
        omega
      · simp only [partition_point, hg, if_neg hp]
        omega

/-- Every position strictly before the partition point satisfies `p`. -/
theorem partition_point_true (p : Nat → Bool) (keys : List KeyData) :
    ∀ cnt lo i, lo ≤ i → i < partition_point p keys lo cnt →
      ∀ e, keys.get? i = some e → p e.key = true := by
  intro cnt
  induction cnt with
  | zero =>
    intro lo i hli hip
    simp only [partition_point] at hip
    omega
  | succ c ih =>
    intro lo i hli hip e hge
    cases hg : keys.get? lo with
    | none =>
      simp only [partition_point, hg] at hip
      omega
    | some e0 =>
      by_cases hp : p e0.key = true
      · simp only [partition_point, hg, if_pos hp] at hip
        rcases Nat.eq_or_lt_of_le hli with heq | hlt
        · subst heq
          rw [hg] at hge
          rw [← Option.some.inj hge]
          exact hp
        · exact ih (lo + 1) i hlt hip e hge
      · simp only [partition_point, hg, if_neg hp] at hip
        omega

/-- The element at the partition point (when the scan stopped before the end
of its range) fails `p`. -/
theorem partition_point_false (p : Nat → Bool) (keys : List KeyData) :
    ∀ cnt lo, partition_point p keys lo cnt < lo + cnt →
      ∀ e, keys.get? (partition_point p keys lo cnt) = some e → p e.key = false := by
  intro cnt
  induction cnt with
  | zero =>
    intro lo hlt
    simp only [partition_point] at hlt
    omega
  | succ c ih =>
    intro lo hlt e hge
    cases hg : keys.get? lo with
    | none =>
      simp only [partition_point, hg] at hge
      exact absurd hge (by simp)
    | some e0 =>
      by_cases hp : p e0.key = true
      · simp only [partition_point, hg, if_pos hp] at hlt hge
        exact ih (lo + 1) (by omega) e hge
      · simp only [partition_point, hg, if_neg hp] at hge
        have hee : e0 = e := Option.some.inj hge
        subst hee
        exact Bool.eq_false_iff.mpr hp

theorem keyN_eq {keys : List KeyData} {i : Nat} {e : KeyData}
    (h : keys.get? i = some e) : keyN keys i = e.key := by
  simp only [keyN, h]

theorem exists_get_of_lt {keys : List KeyData} {i : Nat} (h : i < keys.length) :
    ∃ e, keys.get? i = some e ∧ e.key = keyN keys i := by
  cases hg : keys.get? i with
  | none =>
    rw [List.get?_eq_none] at hg
    omega
  | some e => exact ⟨e, rfl, (keyN_eq hg).symm⟩

/-- The decidable adjacent-sortedness check gives full monotonicity on the
index range. -/
theorem sortedRangeB_le {keys : List KeyData} {first last : Nat}
    (h : sortedRangeB keys first last = true) :
    ∀ i j, first ≤ i → i ≤ j → j ≤ last → keyN keys i ≤ keyN keys j := by
  have hadj : ∀ t, t < last - first →
      keyN keys (first + t) ≤ keyN keys (first + t + 1) := by
    intro t ht
    have hmem : t ∈ List.range (last - first) := List.mem_range.mpr ht
    have := List.all_eq_true.mp h t hmem
    exact of_decide_eq_true this
  intro i j hfi hij hjl
  have key : ∀ m, i + m ≤ last → keyN keys i ≤ keyN keys (i + m) := by
    intro m
    induction m with
    | zero => intro _; exact Nat.le_refl _
    | succ m ih =>
      intro hlast
      have h1 := ih (by omega)
      have ht : (i + m) - first < last - first := by omega
      have h2 := hadj ((i + m) - first) ht
      have heq : first + ((i + m) - first) = i + m := by omega
      rw [heq] at h2
      exact le_trans h1 h2
  have hji := key (j - i) (by omega)
  have heq2 : i + (j - i) = j := by omega
  rwa [heq2] at hji

/-- Keys between two ends that agree on their top bits agree with them too. -/
theorem range_top_eq {keys : List KeyData} {first last n : Nat}
    (hs : sortedRangeB keys first last = true)
    (htop : keyN keys first / 2 ^ n = keyN keys last / 2 ^ n) :
    ∀ i, first ≤ i → i ≤ last → keyN keys i / 2 ^ n = keyN keys first / 2 ^ n := by
  intro i hfi hil
  have h1 : keyN keys first ≤ keyN keys i :=
    sortedRangeB_le hs first i (Nat.le_refl _) hfi hil
  have h2 : keyN keys i ≤ keyN keys last :=
    sortedRangeB_le hs i last hfi hil (Nat.le_refl _)
  have d1 : keyN keys first / 2 ^ n ≤ keyN keys i / 2 ^ n := Nat.div_le_div_right h1
  have d2 : keyN keys i / 2 ^ n ≤ keyN keys last / 2 ^ n := Nat.div_le_div_right h2
  omega

/-- A field of `w` consecutive bits (at weight `m`) is monotone along values
that agree on everything above the field. -/
theorem bits_mono {x y m w : Nat} (hxy : x ≤ y) (htop : x / (m * w) = y / (m * w))
    (hw : 0 < w) : x / m % w ≤ y / m % w := by
  have h1 : x / m ≤ y / m := Nat.div_le_div_right hxy
  have hx4 : x / m / w = y / m / w := by
    rw [Nat.div_div_eq_div_mul, Nat.div_div_eq_div_mul]
    exact htop
  have e1 := Nat.div_add_mod (x / m) w
  have e2 := Nat.div_add_mod (y / m) w
  rw [hx4] at e1
  have hltx : x / m % w < w := Nat.mod_lt _ hw
  have hlty : y / m % w < w := Nat.mod_lt _ hw
  omega

/-- Evaluation of the comparand `(k << shift) & 0xC0000000` as the two-bit
field after the top `shift` bits, parked at weight `2^30`. -/
theorem fieldOf_eq (shift k : Nat) (hs : shift ≤ 30) :
    fieldOf shift k = (k / 2 ^ (30 - shift) % 4) * 2 ^ 30 := by
  have hmask : (0xC0000000 : Nat) = 3 <<< 30 := by norm_num [Nat.shiftLeft_eq]
  rw [fieldOf, hmask, and_shl_mask, Nat.shiftRight_eq_div_pow, and_three_eq_mod_four]
  rw [Nat.shiftLeft_eq, Nat.shiftLeft_eq]
  have h32 : (2 : Nat) ^ 32 = 2 ^ 30 * 4 := by norm_num
  rw [h32, Nat.mod_mul_right_div_self, Nat.mod_mod_of_dvd _ (dvd_refl 4)]
  have hdivs : k * 2 ^ shift / 2 ^ 30 = k / 2 ^ (30 - shift) := by
    rw [show (2 : Nat) ^ 30 = 2 ^ (30 - shift) * 2 ^ shift by
      rw [← pow_add]; congr 1; omega]
    exact Nat.mul_div_mul_right _ _ (Nat.two_pow_pos shift)
  rw [hdivs]

theorem bitsAfter_two (shift k : Nat) : bitsAfter shift 2 k = k / 2 ^ (30 - shift) % 4 := by
  have h : 32 - shift - 2 = 30 - shift := by omega
  simp [bitsAfter, h]

theorem fieldOf_eq_bits (shift k : Nat) (hs : shift ≤ 30) :
    fieldOf shift k = bitsAfter shift 2 k * 2 ^ 30 := by
  rw [bitsAfter_two, fieldOf_eq shift k hs]

theorem bitsAfter_lt (shift b k : Nat) : bitsAfter shift b k < 2 ^ b :=
  Nat.mod_lt _ (Nat.two_pow_pos b)

theorem fieldOf_zero_iff {shift k : Nat} (hs : shift ≤ 30) :
    fieldOf shift k = 0 ↔ bitsAfter shift 2 k = 0 := by
  rw [fieldOf_eq_bits shift k hs]
  constructor
  · intro h
    rcases Nat.mul_eq_zero.mp h with h0 | h0
    · exact h0
    · exact absurd h0 (Nat.pos_iff_ne_zero.mp (Nat.two_pow_pos 30))
  · intro h
    rw [h, Nat.zero_mul]

theorem fieldOf_q1_iff {shift k : Nat} (hs : shift ≤ 30) :
    fieldOf shift k = 0x40000000 ↔ bitsAfter shift 2 k = 1 := by
  rw [fieldOf_eq_bits shift k hs]
  have h1 : (0x40000000 : Nat) = 1 * 2 ^ 30 := by norm_num
  rw [h1]
  constructor
  · intro h
    exact Nat.eq_of_mul_eq_mul_right (Nat.two_pow_pos 30) h
  · intro h
    rw [h]

theorem fieldOf_q2_iff {shift k : Nat} (hs : shift ≤ 30) :
    fieldOf shift k = 0x80000000 ↔ bitsAfter shift 2 k = 2 := by
  rw [fieldOf_eq_bits shift k hs]
  have h2 : (0x80000000 : Nat) = 2 * 2 ^ 30 := by norm_num
  rw [h2]
  constructor
  · intro h
    exact Nat.eq_of_mul_eq_mul_right (Nat.two_pow_pos 30) h
  · intro h
    rw [h]

set_option maxHeartbeats 1000000 in
/-- Exact characterization of `compute_branch` on a sorted range whose keys
agree on the top `pre + skip` bits (with at least two bits left below them):
it always returns, only ever 1 or 2, and returns 2 precisely when quadrants
0, 1 and 2 (of the two bits after the top `pre + skip`) are inhabited and
quadrant 3 is inhabited at some position strictly before the last of the
range -- the final `part == end` test never looks at the last element. -/
theorem compute_branch_spec (keys : List KeyData) (first nkeys pre skip : Nat)
    (hn : 2 ≤ nkeys)
    (hlen : first + nkeys - 1 < keys.length)
    (hsh : pre + skip ≤ 30)
    (hsort : sortedRangeB keys first (first + nkeys - 1) = true)
    (htop : keyN keys first / 2 ^ (32 - (pre + skip)) =
            keyN keys (first + nkeys - 1) / 2 ^ (32 - (pre + skip))) :
    ∃ b, compute_branch keys first nkeys pre skip = some b ∧ (b = 1 ∨ b = 2) ∧
      (b = 2 ↔
        ((∃ i, first ≤ i ∧ i ≤ first + nkeys - 1 ∧
            bitsAfter (pre + skip) 2 (keyN keys i) = 0) ∧
         (∃ i, first ≤ i ∧ i ≤ first + nkeys - 1 ∧
            bitsAfter (pre + skip) 2 (keyN keys i) = 1) ∧
         (∃ i, first ≤ i ∧ i ≤ first + nkeys - 1 ∧
            bitsAfter (pre + skip) 2 (keyN keys i) = 2) ∧
         (∃ i, first ≤ i ∧ i < first + nkeys - 1 ∧
            bitsAfter (pre + skip) 2 (keyN keys i) = 3))) := by
  have hlast0 : first ≤ first + nkeys - 1 := by omega
  have htopAll := range_top_eq hsort htop
  have hpow : (2 : Nat) ^ (30 - (pre + skip)) * 4 = 2 ^ (32 - (pre + skip)) := by
    have h4 : (4 : Nat) = 2 ^ 2 := by norm_num
    rw [h4, ← pow_add]
    congr 1
    omega
  have hQmono : ∀ i j, first ≤ i → i ≤ j → j ≤ first + nkeys - 1 →
      bitsAfter (pre + skip) 2 (keyN keys i) ≤ bitsAfter (pre + skip) 2 (keyN keys j) := by
    intro i j hfi hij hjl
    rw [bitsAfter_two, bitsAfter_two]
    refine bits_mono (sortedRangeB_le hsort i j hfi hij hjl) ?_ (by norm_num)
    rw [hpow, htopAll i hfi (le_trans hij hjl), htopAll j (le_trans hfi hij) hjl]
  have hQlt : ∀ i, bitsAfter (pre + skip) 2 (keyN keys i) < 4 := by
    intro i
    have h := bitsAfter_lt (pre + skip) 2 (keyN keys i)
    norm_num at h
    exact h
  obtain ⟨e0, hg0, hk0⟩ := exists_get_of_lt (lt_of_le_of_lt hlast0 hlen)
  simp only [compute_branch, hg0]
  by_cases hc0 : bitsAfter (pre + skip) 2 (keyN keys first) = 0
  case neg =>
    have hfe0 : fieldOf (pre + skip) e0.key ≠ 0 := by
      rw [hk0, fieldOf_eq_bits _ _ hsh]
      intro hcontra
      rcases Nat.mul_eq_zero.mp hcontra with h | h
      · exact hc0 h
      · exact absurd h (Nat.pos_iff_ne_zero.mp (Nat.two_pow_pos 30))
    rw [if_pos hfe0]
    refine ⟨1, rfl, Or.inl rfl, ?_, ?_⟩
    · intro h12
      exact absurd h12 (by norm_num)
    · rintro ⟨⟨i0, hi0f, hi0l, hi0q⟩, _, _, _⟩
      have h0 := hQmono first i0 (Nat.le_refl _) hi0f hi0l
      rw [hi0q] at h0
      omega
  case pos =>
    have hfe0 : fieldOf (pre + skip) e0.key = 0 := by
      rw [hk0, fieldOf_eq_bits _ _ hsh, hc0, Nat.zero_mul]
    rw [if_neg (not_not_intro hfe0)]
    have hpge := partition_point_ge (fun k => decide (fieldOf (pre + skip) k = 0))
      keys (nkeys - 1) first
    have hple := partition_point_le (fun k => decide (fieldOf (pre + skip) k = 0))
      keys (nkeys - 1) first
    obtain ⟨ep, hgp, hkp⟩ := exists_get_of_lt
      (show partition_point (fun k => decide (fieldOf (pre + skip) k = 0)) keys first
          (nkeys - 1) < keys.length by omega)
    have hbelow1 : ∀ i, first ≤ i →
        i < partition_point (fun k => decide (fieldOf (pre + skip) k = 0)) keys first
              (nkeys - 1) →
        bitsAfter (pre + skip) 2 (keyN keys i) = 0 := by
      intro i h1 h2
      obtain ⟨e, hge, hke⟩ := exists_get_of_lt (show i < keys.length by omega)
      have hp := partition_point_true _ keys (nkeys - 1) first i h1 h2 e hge
      have hfe := of_decide_eq_true hp
      rw [hke] at hfe
      exact (fieldOf_zero_iff hsh).mp hfe
    have hstop1 : partition_point (fun k => decide (fieldOf (pre + skip) k = 0)) keys first
          (nkeys - 1) < first + (nkeys - 1) →
        bitsAfter (pre + skip) 2 (keyN keys
          (partition_point (fun k => decide (fieldOf (pre + skip) k = 0)) keys first
            (nkeys - 1))) ≠ 0 := by
      intro hlt hq0
      have hpf := partition_point_false _ keys (nkeys - 1) first hlt ep hgp
      have hfz : fieldOf (pre + skip) ep.key = 0 := by
        rw [hkp]
        exact (fieldOf_zero_iff hsh).mpr hq0
      rw [hfz] at hpf
      simp at hpf
    set P0 := partition_point (fun k => decide (fieldOf (pre + skip) k = 0)) keys first
      (nkeys - 1) with hP0
    by_cases hcp : bitsAfter (pre + skip) 2 (keyN keys P0) = 1
    case neg =>
      have hfep : fieldOf (pre + skip) ep.key ≠ 0x40000000 := by
        rw [hkp]
        intro hcontra
        exact hcp ((fieldOf_q1_iff hsh).mp hcontra)
      simp only [hgp, if_pos hfep]
      refine ⟨1, rfl, Or.inl rfl, ?_, ?_⟩
      · intro h12
        exact absurd h12 (by norm_num)
      · rintro ⟨_, ⟨i1, hi1f, hi1l, hi1q⟩, _, ⟨i3, hi3f, hi3l, hi3q⟩⟩
        have hi1p : P0 ≤ i1 := by
          by_contra hlt
          push_neg at hlt
          have := hbelow1 i1 hi1f hlt
          omega
        have hQp1 : bitsAfter (pre + skip) 2 (keyN keys P0) ≤ 1 := by
          have h := hQmono P0 i1 hpge hi1p hi1l
          omega
        have hQp0 : bitsAfter (pre + skip) 2 (keyN keys P0) = 0 := by omega
        have hpeq : P0 = first + nkeys - 1 := by
          by_contra hne
          have hlt : P0 < first + (nkeys - 1) := by omega
          exact hstop1 hlt hQp0
        have h3 := hQmono i3 (first + nkeys - 1) hi3f (by omega) (Nat.le_refl _)
        rw [hi3q, ← hpeq] at h3
        omega
    case pos =>
      have hfep : fieldOf (pre + skip) ep.key = 0x40000000 := by
        rw [hkp]
        exact (fieldOf_q1_iff hsh).mpr hcp
      simp only [hgp, if_neg (not_not_intro hfep)]
      have hp2ge := partition_point_ge
        (fun k => decide (fieldOf (pre + skip) k = 0x40000000)) keys
        (first + (nkeys - 1) - P0) P0
      have hp2le := partition_point_le
        (fun k => decide (fieldOf (pre + skip) k = 0x40000000)) keys
        (first + (nkeys - 1) - P0) P0
      obtain ⟨ep2, hgp2, hkp2⟩ := exists_get_of_lt
        (show partition_point (fun k => decide (fieldOf (pre + skip) k = 0x40000000)) keys
            P0 (first + (nkeys - 1) - P0) < keys.length by omega)
      have hbelow2 : ∀ i, P0 ≤ i →
          i < partition_point (fun k => decide (fieldOf (pre + skip) k = 0x40000000)) keys
                P0 (first + (nkeys - 1) - P0) →
          bitsAfter (pre + skip) 2 (keyN keys i) = 1 := by
        intro i h1 h2
        obtain ⟨e, hge, hke⟩ := exists_get_of_lt (show i < keys.length by omega)
        have hp := partition_point_true _ keys (first + (nkeys - 1) - P0) P0 i h1 h2 e hge
        have hfe := of_decide_eq_true hp
        rw [hke] at hfe
        exact (fieldOf_q1_iff hsh).mp hfe
      have hstop2 : partition_point (fun k => decide (fieldOf (pre + skip) k = 0x40000000))
            keys P0 (first + (nkeys - 1) - P0) < P0 + (first + (nkeys - 1) - P0) →
          bitsAfter (pre + skip) 2 (keyN keys
            (partition_point (fun k => decide (fieldOf (pre + skip) k = 0x40000000)) keys
              P0 (first + (nkeys - 1) - P0))) ≠ 1 := by
        intro hlt hq1
        have hpf := partition_point_false _ keys (first + (nkeys - 1) - P0) P0 hlt ep2 hgp2
        have hfz : fieldOf (pre + skip) ep2.key = 0x40000000 := by
          rw [hkp2]
          exact (fieldOf_q1_iff hsh).mpr hq1
        rw [hfz] at hpf
        simp at hpf
      set P1 := partition_point (fun k => decide (fieldOf (pre + skip) k = 0x40000000)) keys
        P0 (first + (nkeys - 1) - P0) with hP1
      have hp1last : P1 ≤ first + nkeys - 1 := by omega
      by_cases hcq : bitsAfter (pre + skip) 2 (keyN keys P1) = 2
      case neg =>
        have hfep2 : fieldOf (pre + skip) ep2.key ≠ 0x80000000 := by
          rw [hkp2]
          intro hcontra
          exact hcq ((fieldOf_q2_iff hsh).mp hcontra)
        simp only [hgp2, if_pos hfep2]
        refine ⟨1, rfl, Or.inl rfl, ?_, ?_⟩
        · intro h12
          exact absurd h12 (by norm_num)
        · rintro ⟨_, _, ⟨i2, hi2f, hi2l, hi2q⟩, ⟨i3, hi3f, hi3l, hi3q⟩⟩
          have hi2p0 : P0 ≤ i2 := by
            by_contra hlt
            push_neg at hlt
            have := hbelow1 i2 hi2f hlt
            omega
          have hi2p1 : P1 ≤ i2 := by
            by_contra hlt
            push_neg at hlt
            have := hbelow2 i2 hi2p0 hlt
            omega
          have hQup : bitsAfter (pre + skip) 2 (keyN keys P1) ≤ 2 := by
            have h := hQmono P1 i2 (le_trans hpge hp2ge) hi2p1 hi2l
            omega
          have hQlow : 1 ≤ bitsAfter (pre + skip) 2 (keyN keys P1) := by
            have h := hQmono P0 P1 hpge hp2ge hp1last
            omega
          have hQp1eq : bitsAfter (pre + skip) 2 (keyN keys P1) = 1 := by omega
          have hp1eq : P1 = first + nkeys - 1 := by
            by_contra hne2
            have hlt2 : P1 < P0 + (first + (nkeys - 1) - P0) := by omega
            exact hstop2 hlt2 hQp1eq
          have h3 := hQmono i3 (first + nkeys - 1) hi3f (by omega) (Nat.le_refl _)
          rw [hi3q, ← hp1eq] at h3
          omega
      case pos =>
        have hfep2 : fieldOf (pre + skip) ep2.key = 0x80000000 := by
          rw [hkp2]
          exact (fieldOf_q2_iff hsh).mpr hcq
        simp only [hgp2, if_neg (not_not_intro hfep2)]
        have hp3ge := partition_point_ge
          (fun k => decide (fieldOf (pre + skip) k = 0x80000000)) keys
          (first + (nkeys - 1) - P1) P1
        have hp3le := partition_point_le
          (fun k => decide (fieldOf (pre + skip) k = 0x80000000)) keys
          (first + (nkeys - 1) - P1) P1
        obtain ⟨ep3, hgp3, hkp3⟩ := exists_get_of_lt
          (show partition_point (fun k => decide (fieldOf (pre + skip) k = 0x80000000)) keys
              P1 (first + (nkeys - 1) - P1) < keys.length by omega)
        have hbelow3 : ∀ i, P1 ≤ i →
            i < partition_point (fun k => decide (fieldOf (pre + skip) k = 0x80000000)) keys
                  P1 (first + (nkeys - 1) - P1) →
            bitsAfter (pre + skip) 2 (keyN keys i) = 2 := by
          intro i h1 h2
          obtain ⟨e, hge, hke⟩ := exists_get_of_lt (show i < keys.length by omega)
          have hp := partition_point_true _ keys (first + (nkeys - 1) - P1) P1 i h1 h2 e hge
          have hfe := of_decide_eq_true hp
          rw [hke] at hfe
          exact (fieldOf_q2_iff hsh).mp hfe
        have hstop3 : partition_point (fun k => decide (fieldOf (pre + skip) k = 0x80000000))
              keys P1 (first + (nkeys - 1) - P1) < P1 + (first + (nkeys - 1) - P1) →
            bitsAfter (pre + skip) 2 (keyN keys
              (partition_point (fun k => decide (fieldOf (pre + skip) k = 0x80000000)) keys
                P1 (first + (nkeys - 1) - P1))) ≠ 2 := by
          intro hlt hq2
          have hpf := partition_point_false _ keys (first + (nkeys - 1) - P1) P1 hlt ep3 hgp3
          have hfz : fieldOf (pre + skip) ep3.key = 0x80000000 := by
            rw [hkp3]
            exact (fieldOf_q2_iff hsh).mpr hq2
          rw [hfz] at hpf
          simp at hpf
        set P2 := partition_point (fun k => decide (fieldOf (pre + skip) k = 0x80000000)) keys
          P1 (first + (nkeys - 1) - P1) with hP2
        have hp2last : P2 ≤ first + nkeys - 1 := by omega
        by_cases hend : P2 = first + (nkeys - 1)
        case pos =>
          rw [if_pos hend]
          refine ⟨1, rfl, Or.inl rfl, ?_, ?_⟩
          · intro h12
            exact absurd h12 (by norm_num)
          · rintro ⟨_, _, _, ⟨i3, hi3f, hi3l, hi3q⟩⟩
            have hi3p0 : P0 ≤ i3 := by
              by_contra hlt
              push_neg at hlt
              have := hbelow1 i3 hi3f hlt
              omega
            have hi3p1 : P1 ≤ i3 := by
              by_contra hlt
              push_neg at hlt
              have := hbelow2 i3 hi3p0 hlt
              omega
            have hi3p2 : i3 < P2 := by omega
            have := hbelow3 i3 hi3p1 hi3p2
            omega
        case neg =>
          rw [if_neg hend]
          refine ⟨2, rfl, Or.inr rfl, fun _ => ?_, fun _ => rfl⟩
          have hp2lt : P2 < P1 + (first + (nkeys - 1) - P1) := by omega
          have hq2ne := hstop3 hp2lt
          have hq2ge : 2 ≤ bitsAfter (pre + skip) 2 (keyN keys P2) := by
            have h := hQmono P1 P2 (le_trans hpge hp2ge) hp3ge hp2last
            omega
          have hq23 : bitsAfter (pre + skip) 2 (keyN keys P2) = 3 := by
            have := hQlt P2
            omega
          exact ⟨⟨first, Nat.le_refl _, hlast0, hc0⟩,
            ⟨P0, hpge, by omega, hcp⟩,
            ⟨P1, le_trans hpge hp2ge, hp1last, hcq⟩,
            ⟨P2, le_trans (le_trans hpge hp2ge) hp3ge, by omega, hq23⟩⟩

/-- C6 counterexample: a sorted range of 8 keys whose top three bits take all
eight values (keys `j << 29`, `j = 0..7`), with `pre = skip = 0` (and `0` is
exactly what `compute_skip` yields here).  The claim's bound
`min(KEY_BITS - pre - skip, floor(log2 nkeys), 31)` allows width 3
(`2^3 ≤ 8 = nkeys`, `3 ≤ 32`, `3 ≤ 31`), and all `2^3` partitions are
non-empty, so the claimed "largest such width" is 3; the code's search is
hard-coded to stop at 2 and returns 2. -/
theorem C6_cex_branch_capped_at_two :
    compute_branch [⟨0, 0⟩, ⟨0x20000000, 0⟩, ⟨0x40000000, 0⟩, ⟨0x60000000, 0⟩,
        ⟨0x80000000, 0⟩, ⟨0xA0000000, 0⟩, ⟨0xC0000000, 0⟩, ⟨0xE0000000, 0⟩] 0 8 0 0 =
      some 2 ∧
    compute_skip 64 [⟨0, 0⟩, ⟨0x20000000, 0⟩, ⟨0x40000000, 0⟩, ⟨0x60000000, 0⟩,
        ⟨0x80000000, 0⟩, ⟨0xA0000000, 0⟩, ⟨0xC0000000, 0⟩, ⟨0xE0000000, 0⟩] 0 8 0 =
      some 0 ∧
    ((List.range 8).all fun j =>
      ([⟨0, 0⟩, ⟨0x20000000, 0⟩, ⟨0x40000000, 0⟩, ⟨0x60000000, 0⟩, ⟨0x80000000, 0⟩,
        ⟨0xA0000000, 0⟩, ⟨0xC0000000, 0⟩, ⟨0xE0000000, 0⟩] : List KeyData).any
        fun e => bitsAfter 0 3 e.key = j) = true ∧
    (2 : Nat) ^ 3 ≤ 8 ∧ (3 : Nat) ≤ 32 - 0 - 0 ∧ (3 : Nat) ≤ 31 :=
  ⟨rfl, rfl, by decide, by decide, by decide, by decide⟩

/-- C6 (amended): the branch search is hard-coded to widths 1 and 2 (the
source's `recursive case????`), so `compute_branch` on a sorted range whose
keys share their top `pre + skip` bits (with at least two bits remaining)
returns a width in `{1, 2}` -- never 0 -- and returns 2 exactly when the
four two-bit partitions after position `pre + skip` are non-empty *with the
quadrant-3 partition inhabited before the last position of the range*: the
final `part == end` comparison never inspects the last element, so a
quadrant-3 partition consisting of the last key alone is not recognised. -/
theorem C6_amended_branch_characterization (keys : List KeyData)
    (first nkeys pre skip : Nat)
    (hn : 2 ≤ nkeys)
    (hlen : first + nkeys - 1 < keys.length)
    (hsh : pre + skip ≤ 30)
    (hsort : sortedRangeB keys first (first + nkeys - 1) = true)
    (htop : keyN keys first / 2 ^ (32 - (pre + skip)) =
            keyN keys (first + nkeys - 1) / 2 ^ (32 - (pre + skip))) :
    ∃ b, compute_branch keys first nkeys pre skip = some b ∧ (b = 1 ∨ b = 2) ∧
      (b = 2 ↔
        ((∃ i, first ≤ i ∧ i ≤ first + nkeys - 1 ∧
            bitsAfter (pre + skip) 2 (keyN keys i) = 0) ∧
         (∃ i, first ≤ i ∧ i ≤ first + nkeys - 1 ∧
            bitsAfter (pre + skip) 2 (keyN keys i) = 1) ∧
         (∃ i, first ≤ i ∧ i ≤ first + nkeys - 1 ∧
            bitsAfter (pre + skip) 2 (keyN keys i) = 2) ∧
         (∃ i, first ≤ i ∧ i < first + nkeys - 1 ∧
            bitsAfter (pre + skip) 2 (keyN keys i) = 3))) :=
  compute_branch_spec keys first nkeys pre skip hn hlen hsh hsort htop

theorem C6_amended_witness :
    sortedRangeB [⟨0, 0⟩, ⟨0x40000000, 0⟩, ⟨0x80000000, 0⟩, ⟨0xC0000000, 0⟩,
        ⟨0xC0000001, 0⟩] 0 4 = true ∧
    (∃ b, compute_branch [⟨0, 0⟩, ⟨0x40000000, 0⟩, ⟨0x80000000, 0⟩, ⟨0xC0000000, 0⟩,
        ⟨0xC0000001, 0⟩] 0 5 0 0 = some b ∧ (b = 1 ∨ b = 2) ∧
      (b = 2 ↔
        ((∃ i, 0 ≤ i ∧ i ≤ 4 ∧ bitsAfter 0 2 (keyN [⟨0, 0⟩, ⟨0x40000000, 0⟩,
            ⟨0x80000000, 0⟩, ⟨0xC0000000, 0⟩, ⟨0xC0000001, 0⟩] i) = 0) ∧
         (∃ i, 0 ≤ i ∧ i ≤ 4 ∧ bitsAfter 0 2 (keyN [⟨0, 0⟩, ⟨0x40000000, 0⟩,
            ⟨0x80000000, 0⟩, ⟨0xC0000000, 0⟩, ⟨0xC0000001, 0⟩] i) = 1) ∧
         (∃ i, 0 ≤ i ∧ i ≤ 4 ∧ bitsAfter 0 2 (keyN [⟨0, 0⟩, ⟨0x40000000, 0⟩,
            ⟨0x80000000, 0⟩, ⟨0xC0000000, 0⟩, ⟨0xC0000001, 0⟩] i) = 2) ∧
         (∃ i, 0 ≤ i ∧ i < 4 ∧ bitsAfter 0 2 (keyN [⟨0, 0⟩, ⟨0x40000000, 0⟩,
            ⟨0x80000000, 0⟩, ⟨0xC0000000, 0⟩, ⟨0xC0000001, 0⟩] i) = 3)))) :=
  ⟨by decide,
   C6_amended_branch_characterization [⟨0, 0⟩, ⟨0x40000000, 0⟩, ⟨0x80000000, 0⟩,
     ⟨0xC0000000, 0⟩, ⟨0xC0000001, 0⟩] 0 5 0 0 (by decide) (by decide) (by decide)
     (by decide) (by decide)⟩

theorem bitsAfter_one (shift k : Nat) : bitsAfter shift 1 k = k / 2 ^ (31 - shift) % 2 := by
  have h : 32 - shift - 1 = 31 - shift := by omega
  simp [bitsAfter, h]

theorem fieldOf_31 (k : Nat) : fieldOf 31 k = k % 2 * 2 ^ 31 := by
  rw [fieldOf, Nat.shiftLeft_eq]
  have h32 : (2 : Nat) ^ 32 = 2 * 2 ^ 31 := by norm_num
  rw [h32, Nat.mul_mod_mul_right (2 ^ 31) k 2]
  rcases Nat.mod_two_eq_zero_or_one k with h | h <;> rw [h] <;> decide

/-- If two ordered values agree above bit `d` and differ at bit `d`, the
smaller has a 0 there and the larger a 1. -/
theorem ends_bits {x y d : Nat} (hxy : x ≤ y)
    (htop : x / 2 ^ (d + 1) = y / 2 ^ (d + 1))
    (hbit : x.testBit d ≠ y.testBit d) :
    x / 2 ^ d % 2 = 0 ∧ y / 2 ^ d % 2 = 1 := by
  have hdd1 : x / 2 ^ d / 2 = x / 2 ^ (d + 1) := by
    rw [Nat.div_div_eq_div_mul, pow_succ]
  have hdd2 : y / 2 ^ d / 2 = y / 2 ^ (d + 1) := by
    rw [Nat.div_div_eq_div_mul, pow_succ]
  have hmono : x / 2 ^ d ≤ y / 2 ^ d := Nat.div_le_div_right hxy
  have hb : ¬(x / 2 ^ d % 2 = y / 2 ^ d % 2) := by
    intro he
    apply hbit
    rw [Nat.testBit_to_div_mod, Nat.testBit_to_div_mod, he]
  have e1 := Nat.div_add_mod (x / 2 ^ d) 2
  have e2 := Nat.div_add_mod (y / 2 ^ d) 2
  rw [hdd1, htop] at e1
  rw [hdd2] at e2
  have hxm : x / 2 ^ d % 2 < 2 := Nat.mod_lt _ (by norm_num)
  have hym : y / 2 ^ d % 2 < 2 := Nat.mod_lt _ (by norm_num)
  omega

set_option maxHeartbeats 1000000 in
/-- C7 (amended): when `skip` is the value `compute_skip` actually computes
for the subrange (and the range is sorted with its first and last keys
agreeing on the top `pre` bits and unequal, as in the recursive
construction), the width `b` returned by `compute_branch` is sound: `b ≥ 1`,
every one of the `2^b` partitions of the subrange by the `b` bits after
position `pre + skip` is non-empty, every key of the subrange falls in
exactly one partition (its `b`-bit value, below `2^b`), and equal-valued
positions are contiguous -- so the partitions are contiguous,
non-overlapping, and their union is exactly the subrange. -/
theorem C7_amended_partitions_sound (keys : List KeyData)
    (first nkeys pre skip : Nat) (ef el : KeyData)
    (hn : 2 ≤ nkeys)
    (hlen : first + nkeys - 1 < keys.length)
    (hsort : sortedRangeB keys first (first + nkeys - 1) = true)
    (hgf : keys.get? first = some ef)
    (hgl : keys.get? (first + nkeys - 1) = some el)
    (hne : ef.key ≠ el.key)
    (hpretop : ef.key / 2 ^ (32 - pre) = el.key / 2 ^ (32 - pre))
    (hskip : compute_skip 32 keys first nkeys pre = some skip) :
    ∃ b, compute_branch keys first nkeys pre skip = some b ∧ 1 ≤ b ∧
      (∀ v, v < 2 ^ b → ∃ i, first ≤ i ∧ i ≤ first + nkeys - 1 ∧
        bitsAfter (pre + skip) b (keyN keys i) = v) ∧
      (∀ i, first ≤ i → i ≤ first + nkeys - 1 →
        bitsAfter (pre + skip) b (keyN keys i) < 2 ^ b) ∧
      (∀ i j l, first ≤ i → i ≤ j → j ≤ l → l ≤ first + nkeys - 1 →
        bitsAfter (pre + skip) b (keyN keys i) = bitsAfter (pre + skip) b (keyN keys l) →
        bitsAfter (pre + skip) b (keyN keys j) = bitsAfter (pre + skip) b (keyN keys i)) := by
  obtain ⟨s, hs, hps, htops, hbits⟩ :=
    compute_skip_spec keys first nkeys pre ef el hgf hgl hne hpretop
  rw [hskip] at hs
  obtain rfl := Option.some.inj hs
  have hkf : keyN keys first = ef.key := keyN_eq hgf
  have hkl : keyN keys (first + nkeys - 1) = el.key := keyN_eq hgl
  have hlast0 : first ≤ first + nkeys - 1 := by omega
  have hshle : pre + skip ≤ 31 := by omega
  have hord : ef.key ≤ el.key := by
    have h := sortedRangeB_le hsort first (first + nkeys - 1)
      (Nat.le_refl _) hlast0 (Nat.le_refl _)
    rwa [hkf, hkl] at h
  have hd1 : 32 - (pre + skip) = (31 - (pre + skip)) + 1 := by omega
  have hbit0 : ef.key / 2 ^ (31 - (pre + skip)) % 2 = 0 ∧
      el.key / 2 ^ (31 - (pre + skip)) % 2 = 1 := by
    refine ends_bits hord ?_ hbits
    rw [← hd1]
    exact htops
  have hb1first : bitsAfter (pre + skip) 1 (keyN keys first) = 0 := by
    rw [bitsAfter_one, hkf]
    exact hbit0.1
  have hb1last : bitsAfter (pre + skip) 1 (keyN keys (first + nkeys - 1)) = 1 := by
    rw [bitsAfter_one, hkl]
    exact hbit0.2
  have htopAll := range_top_eq hsort (show keyN keys first / 2 ^ (32 - (pre + skip)) =
    keyN keys (first + nkeys - 1) / 2 ^ (32 - (pre + skip)) by rw [hkf, hkl]; exact htops)
  have hm1pow : (2 : Nat) ^ (31 - (pre + skip)) * 2 = 2 ^ (32 - (pre + skip)) := by
    rw [← pow_succ]
    congr 1
    omega
  have hb1mono : ∀ i j, first ≤ i → i ≤ j → j ≤ first + nkeys - 1 →
      bitsAfter (pre + skip) 1 (keyN keys i) ≤ bitsAfter (pre + skip) 1 (keyN keys j) := by
    intro i j hfi hij hjl
    rw [bitsAfter_one, bitsAfter_one]
    refine bits_mono (sortedRangeB_le hsort i j hfi hij hjl) ?_ (by norm_num)
    rw [hm1pow, htopAll i hfi (le_trans hij hjl), htopAll j (le_trans hfi hij) hjl]
  by_cases hsh : pre + skip ≤ 30
  case pos =>
    have hpow2 : (2 : Nat) ^ (30 - (pre + skip)) * 4 = 2 ^ (32 - (pre + skip)) := by
      have h4 : (4 : Nat) = 2 ^ 2 := by norm_num
      rw [h4, ← pow_add]
      congr 1
      omega
    have hQmono : ∀ i j, first ≤ i → i ≤ j → j ≤ first + nkeys - 1 →
        bitsAfter (pre + skip) 2 (keyN keys i) ≤ bitsAfter (pre + skip) 2 (keyN keys j) := by
      intro i j hfi hij hjl
      rw [bitsAfter_two, bitsAfter_two]
      refine bits_mono (sortedRangeB_le hsort i j hfi hij hjl) ?_ (by norm_num)
      rw [hpow2, htopAll i hfi (le_trans hij hjl), htopAll j (le_trans hfi hij) hjl]
    obtain ⟨b, hbr, hb12, hiff⟩ := compute_branch_spec keys first nkeys pre skip hn hlen hsh
      hsort (by rw [hkf, hkl]; exact htops)
    rcases hb12 with hb1 | hb2
    · subst hb1
      refine ⟨1, hbr, Nat.le_refl _, ?_, ?_, ?_⟩
      · intro v hv
        norm_num at hv
        interval_cases v
        · exact ⟨first, Nat.le_refl _, hlast0, hb1first⟩
        · exact ⟨first + nkeys - 1, hlast0, Nat.le_refl _, hb1last⟩
      · intro i _ _
        exact bitsAfter_lt _ _ _
      · intro i j l hfi hij hjl hll heq
        have m1 := hb1mono i j hfi hij (le_trans hjl hll)
        have m2 := hb1mono j l (le_trans hfi hij) hjl hll
        omega
    · subst hb2
      obtain ⟨⟨i0, h0f, h0l, h0q⟩, ⟨i1, h1f, h1l, h1q⟩, ⟨i2, h2f, h2l, h2q⟩,
        ⟨i3, h3f, h3l, h3q⟩⟩ := hiff.mp rfl
      refine ⟨2, hbr, by norm_num, ?_, ?_, ?_⟩
      · intro v hv
        norm_num at hv
        interval_cases v
        · exact ⟨i0, h0f, h0l, h0q⟩
        · exact ⟨i1, h1f, h1l, h1q⟩
        · exact ⟨i2, h2f, h2l, h2q⟩
        · exact ⟨i3, h3f, Nat.le_of_lt h3l, h3q⟩
      · intro i _ _
        exact bitsAfter_lt _ _ _
      · intro i j l hfi hij hjl hll heq
        have m1 := hQmono i j hfi hij (le_trans hjl hll)
        have m2 := hQmono j l (le_trans hfi hij) hjl hll
        omega
  case neg =>
    have h31 : pre + skip = 31 := by omega
    have hfe0 : fieldOf (pre + skip) ef.key = 0 := by
      rw [h31, fieldOf_31]
      have h0 := hbit0.1
      rw [h31] at h0
      norm_num at h0
      rw [h0, Nat.zero_mul]
    simp only [compute_branch, hgf, if_neg (not_not_intro hfe0)]
    have hpge := partition_point_ge (fun k => decide (fieldOf (pre + skip) k = 0))
      keys (nkeys - 1) first
    have hple := partition_point_le (fun k => decide (fieldOf (pre + skip) k = 0))
      keys (nkeys - 1) first
    obtain ⟨ep, hgp, hkp⟩ := exists_get_of_lt
      (show partition_point (fun k => decide (fieldOf (pre + skip) k = 0)) keys first
          (nkeys - 1) < keys.length by omega)
    have hfep : fieldOf (pre + skip) ep.key ≠ 0x40000000 := by
      rw [h31, fieldOf_31]
      rcases Nat.mod_two_eq_zero_or_one ep.key with h | h <;> rw [h] <;> decide
    simp only [hgp, if_pos hfep]
    refine ⟨1, rfl, Nat.le_refl _, ?_, ?_, ?_⟩
    · intro v hv
      norm_num at hv
      interval_cases v
      · exact ⟨first, Nat.le_refl _, hlast0, hb1first⟩
      · exact ⟨first + nkeys - 1, hlast0, Nat.le_refl _, hb1last⟩
    · intro i _ _
      exact bitsAfter_lt _ _ _
    · intro i j l hfi hij hjl hll heq
      have m1 := hb1mono i j hfi hij (le_trans hjl hll)
      have m2 := hb1mono j l (le_trans hfi hij) hjl hll
      omega

/-- C7 counterexample: `compute_branch` is handed `pre = 0, skip = 0` on the
sorted two-key range `[0x80000000, 0xC0000000]` (both keys start with bit 1,
so skipping 0 bits does not expose a differing bit).  It returns width 1,
but the partition of the range by the single bit after position 0 has an
empty 0-side: the returned width is not sound for arbitrary `skip`. -/
theorem C7_cex_empty_partition :
    compute_branch [⟨0x80000000, 0⟩, ⟨0xC0000000, 0⟩] 0 2 0 0 = some 1 ∧
    sortedRangeB [⟨0x80000000, 0⟩, ⟨0xC0000000, 0⟩] 0 1 = true ∧
    (([⟨0x80000000, 0⟩, ⟨0xC0000000, 0⟩] : List KeyData).any
      fun e => bitsAfter 0 1 e.key = 0) = false :=
  ⟨rfl, by decide, by decide⟩

theorem C7_amended_witness :
    compute_skip 32 [⟨8, 0⟩, ⟨11, 0⟩] 0 2 0 = some 30 ∧
    (∃ b, compute_branch [⟨8, 0⟩, ⟨11, 0⟩] 0 2 0 30 = some b ∧ 1 ≤ b ∧
      (∀ v, v < 2 ^ b → ∃ i, 0 ≤ i ∧ i ≤ 1 ∧
        bitsAfter 30 b (keyN [⟨8, 0⟩, ⟨11, 0⟩] i) = v) ∧
      (∀ i, 0 ≤ i → i ≤ 1 → bitsAfter 30 b (keyN [⟨8, 0⟩, ⟨11, 0⟩] i) < 2 ^ b) ∧
      (∀ i j l, 0 ≤ i → i ≤ j → j ≤ l → l ≤ 1 →
        bitsAfter 30 b (keyN [⟨8, 0⟩, ⟨11, 0⟩] i) =
          bitsAfter 30 b (keyN [⟨8, 0⟩, ⟨11, 0⟩] l) →
        bitsAfter 30 b (keyN [⟨8, 0⟩, ⟨11, 0⟩] j) =
          bitsAfter 30 b (keyN [⟨8, 0⟩, ⟨11, 0⟩] i))) :=
  ⟨rfl,
   C7_amended_partitions_sound [⟨8, 0⟩, ⟨11, 0⟩] 0 2 0 30 ⟨8, 0⟩ ⟨11, 0⟩ (by decide)
     (by decide) (by decide) rfl rfl (by decide) (by decide) rfl⟩
